import Mathlib

/-!
Shallow embedding of `src/queue/persistantQueue.ts` (a persistent FIFO job
queue backed by a SQLite table plus a single-row counter table).

Modelling conventions:
* A row of the `queue` table is a `Job` (auto-increment `id`, serialized
  payload `job`).  Payloads are modelled by an opaque type with decidable
  equality (`String`); since `JSON.stringify` is injective on the payloads
  the queue stores, serialized-string equality is payload equality.
* The mutable fields of the `PersistentQueue` object, together with the
  contents of the SQLite table, form a `QState`.  `this.length` is
  `Option Int` (`none` is JavaScript `null`, the pre-open value), and
  `this.empty` is `Option Bool` (`none` is `undefined`).  The JS truthiness
  test `if (this.empty)` is `empty = some true` (undefined and false are
  both falsy).
* `this.lastID` and `this.id` are modelled as fields that no code path ever
  assigns: in `add`, the `db.run` callback is an arrow function, so `this`
  is the `PersistentQueue` instance (not the sqlite3 `Statement` that would
  carry `lastID`), and neither property is ever set on the queue object, so
  both reads yield `undefined` (`none`).
* node-sqlite3 runs in serialized mode and the engine is single-threaded,
  so each public operation (including the `trigger_next` cascade it causes)
  is modelled as one atomic state transition emitting a list of events.
* A promise that rejects, a synchronous throw, and `process.exit(1)` are
  distinguished constructors of `CallRes`.
-/

/-- Serialized job payloads (opaque; `JSON.stringify` equality is equality). -/
abbrev Payload := String

/-- One row of the `queue` table: auto-increment id plus stored payload. -/
structure Job where
  id : Nat
  job : Payload
deriving DecidableEq

/-- The mutable state of a `PersistentQueue` instance together with the
rows of its SQLite `queue` table (`storage`, kept in insertion order) and
the next id the AUTOINCREMENT column would assign (`nextId`). -/
structure QState where
  storage : List Job
  nextId : Nat
  batchSize : Nat
  queue : List Job
  length : Option Int
  empty : Option Bool
  run : Bool
  opened : Bool
  dbOpen : Bool
  lastID : Option Nat
  idProp : Option Nat
deriving DecidableEq

/-- Events observable from outside the engine (EventEmitter notifications
plus the VACUUM maintenance request issued by the `empty` handler). -/
inductive Ev where
  | next (j : Option Job)
  | added (id : Option Nat) (p : Payload)
  | deleted (id : Option Nat)
  | emptied
  | vacuum
deriving DecidableEq

/-- Errors surfaced by the queue operations. -/
inductive JsErr where
  | typeError
  | notRemoved (id : Nat)
deriving DecidableEq

/-- Outcome of calling a queue method: a synchronous throw, a rejected
promise, `process.exit(1)`, or normal completion with the new state, the
emitted events and the resolved value. -/
inductive CallRes where
  | syncThrow (e : JsErr)
  | rejected (e : JsErr)
  | fatalExit
  | ok (s : QState) (evs : List Ev) (ret : Option Nat)
deriving DecidableEq

/-- JavaScript `x++` on `this.length` (`null` coerces to 0). -/
def jsInc : Option Int → Option Int
  | none => some 1
  | some n => some (n + 1)

/-- JavaScript `x--` on `this.length` (`null` coerces to 0). -/
def jsDec : Option Int → Option Int
  | none => some (-1)
  | some n => some (n - 1)

/-- Model of `SELECT ... ORDER BY id ASC`: sort rows by ascending id. -/
def sortById (l : List Job) : List Job :=
  List.insertionSort (fun a b => a.id ≤ b.id) l

/-- Model of `hydrateQueue(q, size)` from the source: replaces the in-memory window
with `SELECT * FROM queue ORDER BY id ASC LIMIT q.batchSize` (note the
source ignores its `size` argument and uses `q.batchSize`). -/
def hydrateQueue (q : QState) (_size : Nat) : QState :=
  { q with queue := (sortById q.storage).take q.batchSize }

/-- The `trigger_next` handler: no-op unless running and not empty; hydrate
and emit the refreshed head when the window is drained but rows remain;
emit the window head when the window is non-empty; otherwise declare the
queue empty (the `empty` handler sets the flag and runs `VACUUM`). -/
def triggerNext (s : QState) : QState × List Ev :=
  if ¬ s.run ∨ s.empty = some true then (s, [])
  else if s.queue = [] ∧ s.length ≠ some 0 then
    (hydrateQueue s s.batchSize, [Ev.next (hydrateQueue s s.batchSize).queue.head?])
  else if s.queue ≠ [] then (s, [Ev.next s.queue.head?])
  else ({ s with empty := some true }, [Ev.emptied, Ev.vacuum])

/-- Model of `DELETE FROM queue WHERE id = ?`: removes the matching rows and reports
whether any row was affected (`this.changes`). -/
def dbDelete (s : QState) (i : Nat) : QState × Nat × Bool :=
  ({ s with storage := s.storage.filter (fun j => !(j.id == i)) }, i,
    s.storage.any (fun j => j.id == i))

/-- Model of `removeJob(q, id)`: with `id` omitted it pops the window head
(`q.queue.shift().id`, a synchronous `TypeError` — modelled as `none` —
when the window is empty); otherwise it splices the first window entry with
that id; then it deletes the row from storage. -/
def removeJob (s : QState) (oid : Option Nat) : Option (QState × Nat × Bool) :=
  match oid with
  | none =>
    match s.queue with
    | [] => none
    | j :: rest => some (dbDelete { s with queue := rest } j.id)
  | some i => some (dbDelete { s with queue := s.queue.eraseP (fun j => j.id == i) } i)

/-- Model of `done(id)`: remove the job, decrement `this.length`, fire
`trigger_next`; a `TypeError` from `removeJob` propagates synchronously, a
zero-affected-rows rejection reaches the `.catch` that calls
`process.exit(1)`.  `done` itself returns `undefined`. -/
def doneOp (s : QState) (oid : Option Nat) : CallRes :=
  match removeJob s oid with
  | none => .syncThrow .typeError
  | some (s1, _, true) =>
    let s2 := { s1 with length := jsDec s1.length }
    let r := triggerNext s2
    .ok r.1 r.2 none
  | some (_, _, false) => .fatalExit

/-- Model of `delete(id)`: remove the job, emit the `delete` event with the caller
supplied id, decrement `this.length`, resolve with that id.  A `TypeError`
thrown by `removeJob` inside the promise executor rejects the returned
promise; a zero-affected-rows failure is re-rejected by `.catch(reject)`. -/
def deleteOp (s : QState) (oid : Option Nat) : CallRes :=
  match removeJob s oid with
  | none => .rejected .typeError
  | some (s1, _, true) =>
    let s2 := { s1 with length := jsDec s1.length }
    .ok s2 [Ev.deleted oid] oid
  | some (_, i, false) => .rejected (.notRemoved i)

/-- The insert step of `add(payload)`: insert the row (the SQL insert
trigger keeps the counter table in step with the row count) and increment
`this.length`. -/
def addInsert (s : QState) (p : Payload) : QState :=
  { s with storage := s.storage ++ [Job.mk s.nextId p],
           nextId := s.nextId + 1,
           length := jsInc s.length }

/-- Model of `add(payload)` proper: after the insert, emit the `add` event (whose
handler clears `empty` and, when running, fires `trigger_next`) and resolve
with the undefined `this.id`; see `addInsert` and the module comment. -/
def addOp (s : QState) (p : Payload) : QState × List Ev × Option Nat :=
  if (addInsert s p).empty = some true then
    if (addInsert s p).run then
      ((triggerNext { addInsert s p with empty := some false }).1,
        Ev.added (addInsert s p).lastID p ::
          (triggerNext { addInsert s p with empty := some false }).2,
        (addInsert s p).idProp)
    else ({ addInsert s p with empty := some false },
      [Ev.added (addInsert s p).lastID p], (addInsert s p).idProp)
  else (addInsert s p, [Ev.added (addInsert s p).lastID p], (addInsert s p).idProp)

/-- Model of `open()` on a database whose `queue` table holds `storage0` and whose
AUTOINCREMENT counter stands at `nid`: create the schema, resynchronize the
counter table from a full count, hydrate the first window, and set
`empty = (queue.length === 0)`. -/
def openState (storage0 : List Job) (nid : Nat) (b : Nat) : QState :=
  let s0 : QState :=
    { storage := storage0, nextId := nid, batchSize := b, queue := [],
      length := some (storage0.length : Int), empty := none, run := false,
      opened := false, dbOpen := true, lastID := none, idProp := none }
  let s1 := hydrateQueue s0 b
  { s1 with empty := some s1.queue.isEmpty, opened := true }

/-- Model of `close()`: the `close` handler clears `opened`, the db handle, `empty`,
`run` and the window — but not `this.length`. -/
def closeOp (s : QState) : QState :=
  { s with opened := false, dbOpen := false, empty := none, run := false,
           queue := [] }

/-- Model of `isEmpty()`: throws (`none`) before `open()`, else returns the flag. -/
def isEmptyChk (s : QState) : Option Bool :=
  s.empty

/-- Model of `getLength()`: returns `this.length` (`none` is the pre-open `null`). -/
def getLengthFn (s : QState) : Option Int :=
  s.length

/-- The public operations a caller can interleave after `open()`. -/
inductive Op where
  | add (p : Payload)
  | done (oid : Option Nat)
  | del (oid : Option Nat)
  | start
  | stop
deriving DecidableEq

/-- One successful public operation: `none` when the call throws, rejects
or exits the process. -/
def applyOp (s : QState) (op : Op) : Option (QState × List Ev) :=
  match op with
  | .add p => some ((addOp s p).1, (addOp s p).2.1)
  | .done oid =>
    match doneOp s oid with
    | .ok s1 evs _ => some (s1, evs)
    | _ => none
  | .del oid =>
    match deleteOp s oid with
    | .ok s1 evs _ => some (s1, evs)
    | _ => none
  | .start =>
    if ¬ s.dbOpen then none
    else if s.run then some (s, [])
    else some (triggerNext { s with run := true })
  | .stop => some ({ s with run := false }, [])

/-- Run a sequence of successful operations, concatenating their events. -/
def runOps (s : QState) : List Op → Option (QState × List Ev)
  | [] => some (s, [])
  | op :: ops =>
    match applyOp s op with
    | none => none
    | some (s1, evs) =>
      match runOps s1 ops with
      | none => none
      | some (s2, evs2) => some (s2, evs ++ evs2)

/-- The ids carried by the `next` notifications of an event list. -/
def emittedNextIds (evs : List Ev) : List Nat :=
  evs.filterMap fun e =>
    match e with
    | .next (some j) => some j.id
    | _ => none

/-- Model of `has(id)`: the promise executor names its parameters `(reject, resolve)`
in the wrong order, so every `resolve(...)` in the body rejects the promise
and `reject(err)` would resolve it; the first settle wins, hence the
outcome is always a rejection whose reason is the boolean the code meant to
resolve with. -/
inductive HasOutcome where
  | resolved (b : Bool)
  | rejectedWith (b : Bool)
deriving DecidableEq

/-- Outcome of `has(id)` (see `HasOutcome`). -/
def hasOp (s : QState) (i : Nat) : HasOutcome :=
  if s.queue.any (fun j => j.id == i) then .rejectedWith true
  else .rejectedWith (s.storage.any (fun j => j.id == i))

/-- A JavaScript value resolved by `getFirstJobId`. -/
inductive JVal where
  | num (n : Nat)
  | null
  | undefined
deriving DecidableEq

/-- Model of `searchQueue(q, job)`: ids of all rows whose serialized payload equals
the given payload, ascending by id. -/
def searchQueue (s : QState) (p : Payload) : List Nat :=
  ((sortById s.storage).filter (fun j => j.job == p)).map (fun j => j.id)

/-- Model of `getFirstJobId(job)`: `findIndex` over the window by serialized
equality, else fall back to `searchQueue`.  The fallback compares
`data === []`, which is reference equality and never true, so on no match
it resolves `data[0]` — `undefined`, not `null`. -/
def getFirstJobId (s : QState) (p : Payload) : JVal :=
  match s.queue.find? (fun j => j.job == p) with
  | some j => .num j.id
  | none =>
    match (searchQueue s p).head? with
    | some i => .num i
    | none => .undefined

/-- Constructor argument for the batch size: a JS number or anything else. -/
inductive CtorArg where
  | num (n : Int)
  | nonNum
deriving DecidableEq

/-- The configuration a successfully constructed queue holds. -/
structure QConfig where
  dbPath : String
  batchSize : Int
deriving DecidableEq

/-- Model of `new PersistentQueue(filename, batchSize)`: throws when `filename` is
`undefined`; maps the empty string to the `:memory:` store; defaults an
omitted batch size to 10; throws when the batch size is not a number or is
below 1. -/
def persistentQueueCtor (filename : Option String) (batchSize : Option CtorArg) :
    Except String QConfig :=
  match filename with
  | none => .error "No filename parameter provided"
  | some f =>
    let path := if f = "" then ":memory:" else f
    let b : CtorArg := match batchSize with | none => .num 10 | some a => a
    match b with
    | .nonNum => .error "Invalid batchSize parameter.  Must be a NUMBER > 0"
    | .num n =>
      if n < 1 then .error "Invalid batchSize parameter.  Must be a NUMBER > 0"
      else .ok { dbPath := path, batchSize := n }

/-!  Reachability invariant and helper lemmas. -/

/-- Invariant of every state reachable by successful operations after
`open()`: storage rows strictly ascend in id and stay below the
auto-increment counter, the window is a prefix of storage, `this.length`
mirrors the row count, the `empty` flag is only ever true of an empty
store, and the db handle is open. -/
def QInv (s : QState) : Prop :=
  List.Pairwise (fun a b => a.id < b.id) s.storage ∧
  (∀ j ∈ s.storage, j.id < s.nextId) ∧
  s.queue = s.storage.take s.queue.length ∧
  s.length = some (s.storage.length : Int) ∧
  (s.empty = some true → s.storage = []) ∧
  s.dbOpen = true

instance (s : QState) : Decidable (QInv s) := by
  unfold QInv
  infer_instance

lemma head?_take_eq_some {l : List Job} {b : Nat} {x : Job}
    (h : (l.take b).head? = some x) : l.head? = some x := by
  cases l with
  | nil => simp at h
  | cons a t =>
    cases b with
    | zero => simp at h
    | succ n => simpa using h

lemma head_min {l : List Job}
    (hs : List.Pairwise (fun a b => a.id < b.id) l) {x : Job}
    (hx : l.head? = some x) : ∀ j ∈ l, x.id ≤ j.id := by
  cases l with
  | nil => simp at hx
  | cons a t =>
    simp only [List.head?_cons, Option.some.injEq] at hx
    subst hx
    intro j hj
    rcases List.mem_cons.mp hj with h | h
    · subst h; exact le_refl _
    · exact le_of_lt ((List.pairwise_cons.mp hs).1 j h)

lemma sortById_eq_self {l : List Job}
    (hs : List.Pairwise (fun a b => a.id < b.id) l) : sortById l = l := by
  apply List.Sorted.insertionSort_eq
  exact hs.imp (fun h => le_of_lt h)

lemma take_len_take (b : Nat) (l : List Job) :
    l.take ((l.take b).length) = l.take b := by
  rw [List.length_take]
  conv_lhs => rw [← List.take_take, List.take_length]

lemma eraseP_eq_filter_unique {l : List Job} {i : Nat}
    (hs : List.Pairwise (fun a b => a.id < b.id) l) :
    l.eraseP (fun j => j.id == i) = l.filter (fun j => !(j.id == i)) := by
  induction l with
  | nil => rfl
  | cons a t ih =>
    rcases List.pairwise_cons.mp hs with ⟨ha, ht⟩
    by_cases hma : a.id = i
    · rw [List.eraseP_cons_of_pos (by simp [hma]),
        List.filter_cons_of_neg (by simp [hma])]
      symm
      apply List.filter_eq_self.mpr
      intro b hb
      have hab := ha b hb
      simp only [Bool.not_eq_eq_eq_not, Bool.not_true, beq_eq_false_iff_ne,
        ne_eq]
      omega
    · rw [List.eraseP_cons_of_neg (by simp [hma]),
        List.filter_cons_of_pos (by simp [hma]), ih ht]

lemma length_filter_out {l : List Job} {i : Nat}
    (hs : List.Pairwise (fun a b => a.id < b.id) l)
    (hmem : ∃ j ∈ l, j.id = i) :
    (l.filter (fun j => !(j.id == i))).length + 1 = l.length := by
  induction l with
  | nil => simp at hmem
  | cons a t ih =>
    rcases List.pairwise_cons.mp hs with ⟨ha, ht⟩
    by_cases hma : a.id = i
    · rw [List.filter_cons_of_neg (by simp [hma])]
      have hft : t.filter (fun j => !(j.id == i)) = t := by
        apply List.filter_eq_self.mpr
        intro b hb
        have hab := ha b hb
        simp only [Bool.not_eq_eq_eq_not, Bool.not_true, beq_eq_false_iff_ne,
          ne_eq]
        omega
      rw [hft]
      simp
    · rcases hmem with ⟨j, hj, hji⟩
      rcases List.mem_cons.mp hj with rfl | hjt
      · exact absurd hji hma
      · rw [List.filter_cons_of_pos (by simp [hma])]
        have h2 := ih ht ⟨j, hjt, hji⟩
        simp only [List.length_cons]
        omega

lemma filter_append_eraseP {q t : List Job} {i : Nat}
    (hs : List.Pairwise (fun a b => a.id < b.id) (q ++ t)) :
    ∃ t2, (q ++ t).filter (fun j => !(j.id == i)) =
      q.eraseP (fun j => j.id == i) ++ t2 := by
  refine ⟨t.filter (fun j => !(j.id == i)), ?_⟩
  rw [List.filter_append]
  congr 1
  exact (eraseP_eq_filter_unique (hs.sublist (List.sublist_append_left q t))).symm

lemma triggerNext_ok {s : QState} (hInv : QInv s) :
    QInv (triggerNext s).1 ∧
    (triggerNext s).1.storage = s.storage ∧
    (triggerNext s).1.nextId = s.nextId ∧
    (triggerNext s).1.length = s.length ∧
    ∀ i ∈ emittedNextIds (triggerNext s).2,
      ∃ j, s.storage.head? = some j ∧ i = j.id := by
  obtain ⟨hsort, hbound, hpre, hlen, hemp, hdb⟩ := hInv
  by_cases h1 : ¬ s.run ∨ s.empty = some true
  · have ht : triggerNext s = (s, []) := by
      unfold triggerNext
      rw [if_pos h1]
    rw [ht]
    exact ⟨⟨hsort, hbound, hpre, hlen, hemp, hdb⟩, rfl, rfl, rfl, by
      simp [emittedNextIds]⟩
  · by_cases h2 : s.queue = [] ∧ s.length ≠ some 0
    · have ht : triggerNext s =
          (hydrateQueue s s.batchSize,
            [Ev.next (hydrateQueue s s.batchSize).queue.head?]) := by
        unfold triggerNext
        rw [if_neg h1, if_pos h2]
      rw [ht]
      have hq : (hydrateQueue s s.batchSize).queue = s.storage.take s.batchSize := by
        simp [hydrateQueue, sortById_eq_self hsort]
      refine ⟨⟨hsort, hbound, ?_, hlen, ?_, hdb⟩, rfl, rfl, rfl, ?_⟩
      · show (hydrateQueue s s.batchSize).queue =
          s.storage.take (hydrateQueue s s.batchSize).queue.length
        rw [hq]
        exact (take_len_take s.batchSize s.storage).symm
      · intro he
        exact absurd (Or.inr he) h1
      · intro i hi
        rcases hh : (hydrateQueue s s.batchSize).queue.head? with _ | j
        · simp [emittedNextIds, hh] at hi
        · simp only [emittedNextIds, hh, List.filterMap_cons, List.filterMap_nil,
            List.mem_singleton] at hi
          subst hi
          refine ⟨j, ?_, rfl⟩
          rw [hq] at hh
          exact head?_take_eq_some hh
    · by_cases h3 : s.queue ≠ []
      · have ht : triggerNext s = (s, [Ev.next s.queue.head?]) := by
          unfold triggerNext
          rw [if_neg h1, if_neg h2, if_pos h3]
        rw [ht]
        refine ⟨⟨hsort, hbound, hpre, hlen, hemp, hdb⟩, rfl, rfl, rfl, ?_⟩
        intro i hi
        rcases hh : s.queue.head? with _ | j
        · simp [emittedNextIds, hh] at hi
        · simp only [emittedNextIds, hh, List.filterMap_cons, List.filterMap_nil,
            List.mem_singleton] at hi
          subst hi
          refine ⟨j, ?_, rfl⟩
          rw [hpre] at hh
          exact head?_take_eq_some hh
      · have ht : triggerNext s =
            ({ s with empty := some true }, [Ev.emptied, Ev.vacuum]) := by
          unfold triggerNext
          rw [if_neg h1, if_neg h2, if_neg h3]
        rw [ht]
        push_neg at h3
        have hlen0 : s.length = some 0 := by
          rcases not_and_or.mp h2 with hc | hc
          · exact absurd h3 hc
          · simpa using hc
        have hst : s.storage = [] := by
          have h0 : (s.storage.length : Int) = 0 := by
            have hx := hlen.symm.trans hlen0
            simpa using hx
          have h0n : s.storage.length = 0 := by exact_mod_cast h0
          exact List.length_eq_zero.mp h0n
        refine ⟨⟨hsort, hbound, ?_, hlen, ?_, hdb⟩, rfl, rfl, rfl, ?_⟩
        · show s.queue = s.storage.take s.queue.length
          rw [h3]
          simp
        · intro _
          exact hst
        · intro i hi
          simp [emittedNextIds] at hi

lemma prefix_drop {s : QState} (hpre : s.queue = s.storage.take s.queue.length) :
    s.storage = s.queue ++ s.storage.drop s.queue.length := by
  conv_lhs => rw [← List.take_append_drop s.queue.length s.storage]
  rw [← hpre]

lemma removeJob_shape {s : QState} {oid : Option Nat} {s1 : QState} {i : Nat}
    {ch : Bool} (h : removeJob s oid = some (s1, i, ch)) :
    s1.queue = s.queue.eraseP (fun j => j.id == i) ∧
    s1.storage = s.storage.filter (fun j => !(j.id == i)) ∧
    ch = s.storage.any (fun j => j.id == i) ∧
    s1.nextId = s.nextId ∧ s1.length = s.length ∧ s1.empty = s.empty ∧
    s1.dbOpen = s.dbOpen ∧ s1.batchSize = s.batchSize := by
  cases oid with
  | none =>
    cases hq : s.queue with
    | nil =>
      rw [removeJob, hq] at h
      exact absurd h (by simp)
    | cons j rest =>
      rw [removeJob, hq] at h
      simp only [dbDelete, Option.some.injEq, Prod.mk.injEq] at h
      obtain ⟨hs1, hi, hch⟩ := h
      subst hs1
      subst hi
      refine ⟨?_, rfl, hch.symm, rfl, rfl, rfl, rfl, rfl⟩
      rw [List.eraseP_cons_of_pos (by simp)]
  | some i0 =>
    rw [removeJob] at h
    simp only [dbDelete, Option.some.injEq, Prod.mk.injEq] at h
    obtain ⟨hs1, hi, hch⟩ := h
    subst hs1
    subst hi
    exact ⟨rfl, rfl, hch.symm, rfl, rfl, rfl, rfl, rfl⟩

lemma removal_ok {s : QState} {oid : Option Nat} {s1 : QState} {i : Nat}
    (hInv : QInv s) (h : removeJob s oid = some (s1, i, true)) :
    QInv { s1 with length := jsDec s1.length } ∧
    s1.nextId = s.nextId ∧
    (∀ j ∈ s1.storage, j ∈ s.storage) := by
  obtain ⟨hq1, hst1, hch, hnid, hlen1, hemp1, hdb1, hbs1⟩ := removeJob_shape h
  obtain ⟨hsort, hbound, hpre, hlen, hemp, hdb⟩ := hInv
  have hmem : ∃ j ∈ s.storage, j.id = i := by
    rcases List.any_eq_true.mp hch.symm with ⟨j, hj, hji⟩
    exact ⟨j, hj, by simpa using hji⟩
  have hsub : ∀ j ∈ s1.storage, j ∈ s.storage := by
    intro j hj
    rw [hst1] at hj
    exact (List.mem_filter.mp hj).1
  refine ⟨⟨?_, ?_, ?_, ?_, ?_, ?_⟩, hnid, hsub⟩
  · show List.Pairwise (fun a b => a.id < b.id) s1.storage
    rw [hst1]
    exact hsort.sublist (List.filter_sublist s.storage)
  · intro j hj
    show j.id < s1.nextId
    rw [hnid]
    exact hbound j (hsub j hj)
  · show s1.queue = s1.storage.take s1.queue.length
    have hdecomp := prefix_drop hpre
    have hsort2 : List.Pairwise (fun a b => a.id < b.id)
        (s.queue ++ s.storage.drop s.queue.length) := by
      rw [← hdecomp]
      exact hsort
    obtain ⟨t2, ht2⟩ := filter_append_eraseP (t := s.storage.drop s.queue.length)
      (i := i) hsort2
    rw [hst1, hq1, hdecomp, ht2]
    exact (List.take_left _ _).symm
  · show jsDec s1.length = some ((s1.storage.length : Int))
    rw [hlen1, hlen, hst1]
    have hcount := length_filter_out hsort hmem
    simp only [jsDec]
    congr 1
    omega
  · intro he
    have he2 : s1.empty = some true := he
    rw [hemp1] at he2
    have hst0 := hemp he2
    rw [hst0] at hch
    simp at hch
  · show s1.dbOpen = true
    rw [hdb1]
    exact hdb

/-- Net effect of one successful operation on the stored row count. -/
def opDelta : Op → Int
  | .add _ => 1
  | .done _ => -1
  | .del _ => -1
  | .start => 0
  | .stop => 0

/-- Net effect of a sequence of successful operations on the row count. -/
def netDelta (ops : List Op) : Int :=
  (ops.map opDelta).sum

lemma queue_len_le {s : QState} (hpre : s.queue = s.storage.take s.queue.length) :
    s.queue.length ≤ s.storage.length := by
  conv_lhs => rw [hpre]
  rw [List.length_take]
  omega

lemma applyOp_ok {s : QState} {op : Op} {s1 : QState} {evs : List Ev}
    (hInv : QInv s) (h : applyOp s op = some (s1, evs)) :
    QInv s1 ∧
    s.nextId ≤ s1.nextId ∧
    (∀ j ∈ s1.storage, j ∈ s.storage ∨ s.nextId ≤ j.id) ∧
    ((s1.storage.length : Int) = s.storage.length + opDelta op) ∧
    ∀ i ∈ emittedNextIds evs, ∃ j, s1.storage.head? = some j ∧ i = j.id := by
  obtain ⟨hsort, hbound, hpre, hlen, hemp, hdb⟩ := hInv
  cases op with
  | add p =>
    have hsortA : List.Pairwise (fun a b => a.id < b.id) (addInsert s p).storage := by
      show List.Pairwise (fun a b => a.id < b.id) (s.storage ++ [Job.mk s.nextId p])
      refine List.pairwise_append.mpr ⟨hsort, by simp, ?_⟩
      intro a ha b hb
      rcases List.mem_singleton.mp hb with rfl
      exact hbound a ha
    have hboundA : ∀ j ∈ (addInsert s p).storage, j.id < (addInsert s p).nextId := by
      intro j hj
      show j.id < s.nextId + 1
      rcases List.mem_append.mp hj with hj2 | hj2
      · exact Nat.lt_succ_of_lt (hbound j hj2)
      · rcases List.mem_singleton.mp hj2 with rfl
        exact Nat.lt_succ_self _
    have hpreA : (addInsert s p).queue =
        (addInsert s p).storage.take (addInsert s p).queue.length := by
      show s.queue = (s.storage ++ [Job.mk s.nextId p]).take s.queue.length
      rw [List.take_append_of_le_length (queue_len_le hpre)]
      exact hpre
    have hlenA : (addInsert s p).length =
        some (((addInsert s p).storage.length : Int)) := by
      show jsInc s.length = some (((s.storage ++ [Job.mk s.nextId p]).length : Int))
      rw [hlen]
      simp [jsInc]
    have hgrow : ∀ j ∈ (addInsert s p).storage, j ∈ s.storage ∨ s.nextId ≤ j.id := by
      intro j hj
      rcases List.mem_append.mp hj with hj2 | hj2
      · exact Or.inl hj2
      · rcases List.mem_singleton.mp hj2 with rfl
        exact Or.inr (le_refl _)
    have hdelta : (((addInsert s p).storage.length : Int)) =
        s.storage.length + opDelta (Op.add p) := by
      show (((s.storage ++ [Job.mk s.nextId p]).length : Int)) =
        s.storage.length + opDelta (Op.add p)
      simp [opDelta]
    simp only [applyOp, Option.some.injEq, Prod.mk.injEq] at h
    obtain ⟨hs1, hevs⟩ := h
    by_cases hce : (addInsert s p).empty = some true
    · by_cases hcr : (addInsert s p).run = true
      · rw [addOp, if_pos hce, if_pos hcr] at hs1 hevs
        subst hs1
        subst hevs
        have hInv2 : QInv ({ addInsert s p with empty := some false }) := by
          refine ⟨hsortA, hboundA, hpreA, hlenA, ?_, hdb⟩
          intro he
          simp at he
        obtain ⟨htI, htS0, htN0, htL0, htE0⟩ := triggerNext_ok hInv2
        have htS : (triggerNext { addInsert s p with empty := some false }).1.storage
            = (addInsert s p).storage := htS0
        have htN : (triggerNext { addInsert s p with empty := some false }).1.nextId
            = s.nextId + 1 := htN0
        have htE : ∀ i ∈ emittedNextIds
            (triggerNext { addInsert s p with empty := some false }).2,
            ∃ j, (addInsert s p).storage.head? = some j ∧ i = j.id := htE0
        refine ⟨htI, ?_, ?_, ?_, ?_⟩
        · show s.nextId ≤
            (triggerNext { addInsert s p with empty := some false }).1.nextId
          rw [htN]
          omega
        · intro j hj
          have hj2 : j ∈
              (triggerNext { addInsert s p with empty := some false }).1.storage := hj
          rw [htS] at hj2
          exact hgrow j hj2
        · show (((triggerNext
              { addInsert s p with empty := some false }).1.storage.length : Int))
            = s.storage.length + opDelta (Op.add p)
          rw [htS]
          exact hdelta
        · intro i hi
          have hi2 : i ∈ emittedNextIds
              (triggerNext { addInsert s p with empty := some false }).2 := by
            simpa [emittedNextIds] using hi
          rcases htE i hi2 with ⟨j, hj1, hj2⟩
          refine ⟨j, ?_, hj2⟩
          show (triggerNext
            { addInsert s p with empty := some false }).1.storage.head? = some j
          rw [htS]
          exact hj1
      · rw [addOp, if_pos hce, if_neg hcr] at hs1 hevs
        subst hs1
        subst hevs
        refine ⟨⟨hsortA, hboundA, hpreA, hlenA, by intro he; simp at he, hdb⟩,
          ?_, hgrow, hdelta, ?_⟩
        · show s.nextId ≤ s.nextId + 1
          omega
        · intro i hi
          simp [emittedNextIds] at hi
    · rw [addOp, if_neg hce] at hs1 hevs
      subst hs1
      subst hevs
      refine ⟨⟨hsortA, hboundA, hpreA, hlenA,
        by intro he; exact absurd he hce, hdb⟩, ?_, hgrow, hdelta, ?_⟩
      · show s.nextId ≤ s.nextId + 1
        omega
      · intro i hi
        simp [emittedNextIds] at hi
  | done oid =>
    rcases hrm : removeJob s oid with _ | ⟨sR, i, ch⟩
    · simp [applyOp, doneOp, hrm] at h
    · cases ch with
      | false => simp [applyOp, doneOp, hrm] at h
      | true =>
        simp only [applyOp, doneOp, hrm, Option.some.injEq, Prod.mk.injEq] at h
        obtain ⟨hs1, hevs⟩ := h
        subst hs1
        subst hevs
        obtain ⟨hInv2, hnid2, hsub2⟩ :=
          removal_ok ⟨hsort, hbound, hpre, hlen, hemp, hdb⟩ hrm
        obtain ⟨hqR, hstR, hchR, hnidR, hlenR, hempR, hdbR, hbsR⟩ :=
          removeJob_shape hrm
        obtain ⟨htI, htS0, htN0, htL0, htE0⟩ := triggerNext_ok hInv2
        have htS : (triggerNext { sR with length := jsDec sR.length }).1.storage
            = sR.storage := htS0
        have htN : (triggerNext { sR with length := jsDec sR.length }).1.nextId
            = sR.nextId := htN0
        have htE : ∀ i2 ∈ emittedNextIds
            (triggerNext { sR with length := jsDec sR.length }).2,
            ∃ j, sR.storage.head? = some j ∧ i2 = j.id := htE0
        have hmem : ∃ j ∈ s.storage, j.id = i := by
          rcases List.any_eq_true.mp hchR.symm with ⟨j, hj, hji⟩
          exact ⟨j, hj, by simpa using hji⟩
        refine ⟨htI, ?_, ?_, ?_, ?_⟩
        · show s.nextId ≤
            (triggerNext { sR with length := jsDec sR.length }).1.nextId
          rw [htN, hnidR]
        · intro j hj
          have hj2 : j ∈
              (triggerNext { sR with length := jsDec sR.length }).1.storage := hj
          rw [htS] at hj2
          exact Or.inl (hsub2 j hj2)
        · show (((triggerNext
              { sR with length := jsDec sR.length }).1.storage.length : Int))
            = s.storage.length + opDelta (Op.done oid)
          rw [htS, hstR]
          have hcount := length_filter_out hsort hmem
          show ((List.filter (fun j => !(j.id == i)) s.storage).length : Int)
            = s.storage.length + (-1)
          omega
        · intro i2 hi2
          rcases htE i2 hi2 with ⟨j, hj1, hj2⟩
          refine ⟨j, ?_, hj2⟩
          show (triggerNext
            { sR with length := jsDec sR.length }).1.storage.head? = some j
          rw [htS]
          exact hj1
  | del oid =>
    rcases hrm : removeJob s oid with _ | ⟨sR, i, ch⟩
    · simp [applyOp, deleteOp, hrm] at h
    · cases ch with
      | false => simp [applyOp, deleteOp, hrm] at h
      | true =>
        simp only [applyOp, deleteOp, hrm, Option.some.injEq, Prod.mk.injEq] at h
        obtain ⟨hs1, hevs⟩ := h
        subst hs1
        subst hevs
        obtain ⟨hInv2, hnid2, hsub2⟩ :=
          removal_ok ⟨hsort, hbound, hpre, hlen, hemp, hdb⟩ hrm
        obtain ⟨hqR, hstR, hchR, hnidR, hlenR, hempR, hdbR, hbsR⟩ :=
          removeJob_shape hrm
        have hmem : ∃ j ∈ s.storage, j.id = i := by
          rcases List.any_eq_true.mp hchR.symm with ⟨j, hj, hji⟩
          exact ⟨j, hj, by simpa using hji⟩
        refine ⟨hInv2, ?_, ?_, ?_, ?_⟩
        · show s.nextId ≤ sR.nextId
          rw [hnidR]
        · intro j hj
          have hj2 : j ∈ sR.storage := hj
          exact Or.inl (hsub2 j hj2)
        · show ((sR.storage.length : Int)) = s.storage.length + opDelta (Op.del oid)
          rw [hstR]
          have hcount := length_filter_out hsort hmem
          show ((List.filter (fun j => !(j.id == i)) s.storage).length : Int)
            = s.storage.length + (-1)
          omega
        · intro i2 hi2
          simp [emittedNextIds] at hi2
  | start =>
    by_cases hro : s.run = true
    · have ha : applyOp s Op.start = some (s, []) := by
        rw [applyOp]
        rw [if_neg (by simp [hdb]), if_pos hro]
      rw [ha] at h
      simp only [Option.some.injEq, Prod.mk.injEq] at h
      obtain ⟨hs1, hevs⟩ := h
      subst hs1
      subst hevs
      refine ⟨⟨hsort, hbound, hpre, hlen, hemp, hdb⟩, le_refl _,
        fun j hj => Or.inl hj, by simp [opDelta], ?_⟩
      intro i hi
      simp [emittedNextIds] at hi
    · have ha : applyOp s Op.start = some (triggerNext { s with run := true }) := by
        rw [applyOp]
        rw [if_neg (by simp [hdb]), if_neg hro]
      rw [ha] at h
      have hInv2 : QInv ({ s with run := true }) :=
        ⟨hsort, hbound, hpre, hlen, hemp, hdb⟩
      obtain ⟨htI, htS0, htN0, htL0, htE0⟩ := triggerNext_ok hInv2
      have hpair : (triggerNext { s with run := true }) =
          ((triggerNext { s with run := true }).1,
            (triggerNext { s with run := true }).2) := rfl
      rw [hpair] at h
      simp only [Option.some.injEq, Prod.mk.injEq] at h
      obtain ⟨hs1, hevs⟩ := h
      subst hs1
      subst hevs
      have htS : (triggerNext { s with run := true }).1.storage = s.storage := htS0
      have htN : (triggerNext { s with run := true }).1.nextId = s.nextId := htN0
      have htE : ∀ i ∈ emittedNextIds (triggerNext { s with run := true }).2,
          ∃ j, s.storage.head? = some j ∧ i = j.id := htE0
      refine ⟨htI, ?_, ?_, ?_, ?_⟩
      · show s.nextId ≤ (triggerNext { s with run := true }).1.nextId
        rw [htN]
      · intro j hj
        have hj2 : j ∈ (triggerNext { s with run := true }).1.storage := hj
        rw [htS] at hj2
        exact Or.inl hj2
      · show (((triggerNext { s with run := true }).1.storage.length : Int))
          = s.storage.length + opDelta Op.start
        rw [htS]
        simp [opDelta]
      · intro i hi
        rcases htE i hi with ⟨j, hj1, hj2⟩
        refine ⟨j, ?_, hj2⟩
        show (triggerNext { s with run := true }).1.storage.head? = some j
        rw [htS]
        exact hj1
  | stop =>
    simp only [applyOp, Option.some.injEq, Prod.mk.injEq] at h
    obtain ⟨hs1, hevs⟩ := h
    subst hs1
    subst hevs
    refine ⟨⟨hsort, hbound, hpre, hlen, hemp, hdb⟩, le_refl _,
      fun j hj => Or.inl hj, by simp [opDelta], ?_⟩
    intro i hi
    simp [emittedNextIds] at hi

/-- Trace invariant: the state invariant, monotone emissions so far, and
every past emission bounded by the auto-increment counter and by every id
still in storage. -/
def TraceOK (s : QState) (ids : List Nat) : Prop :=
  QInv s ∧ List.Chain' (fun a b => a ≤ b) ids ∧
  (∀ m ∈ ids, m < s.nextId) ∧
  (∀ m ∈ ids, ∀ j ∈ s.storage, m ≤ j.id)

lemma chain_le_of_const (c : Nat) : ∀ {l : List Nat}, (∀ x ∈ l, x = c) →
    List.Chain' (fun a b => a ≤ b) l
  | [], _ => List.chain'_nil
  | [_], _ => List.chain'_singleton _
  | a :: b :: t, h => by
    rw [List.chain'_cons]
    refine ⟨?_, chain_le_of_const c ?_⟩
    · rw [h a (by simp), h b (by simp)]
    · intro x hx
      exact h x (List.mem_cons_of_mem a hx)

lemma traceOK_step {s : QState} {ids : List Nat} {op : Op} {s1 : QState}
    {evs : List Ev} (h : TraceOK s ids) (hstep : applyOp s op = some (s1, evs)) :
    TraceOK s1 (ids ++ emittedNextIds evs) := by
  obtain ⟨hInv, hch, hlt, hlo⟩ := h
  obtain ⟨hInv1, hnle, hgrow, hdelta, hemit⟩ := applyOp_ok hInv hstep
  have hmin : ∀ i ∈ emittedNextIds evs,
      (∀ j ∈ s1.storage, i ≤ j.id) ∧ i < s1.nextId := by
    intro i hi
    rcases hemit i hi with ⟨j0, hj0, rfl⟩
    have hmem0 : j0 ∈ s1.storage := by
      have := List.mem_of_mem_head? (show j0 ∈ s1.storage.head? from hj0 ▸ rfl)
      exact this
    exact ⟨head_min hInv1.1 hj0, hInv1.2.1 j0 hmem0⟩
  have hconst : ∀ x ∈ emittedNextIds evs, ∀ y ∈ emittedNextIds evs, x = y := by
    intro x hx y hy
    rcases hemit x hx with ⟨j0, hj0, rfl⟩
    rcases hemit y hy with ⟨j1, hj1, rfl⟩
    have := hj0.symm.trans hj1
    simp only [Option.some.injEq] at this
    rw [this]
  refine ⟨hInv1, ?_, ?_, ?_⟩
  · rw [List.chain'_append]
    refine ⟨hch, ?_, ?_⟩
    · rcases hne : emittedNextIds evs with _ | ⟨i0, rest⟩
      · exact List.chain'_nil
      · have hc : ∀ x ∈ i0 :: rest, x = i0 := by
          intro x hx
          have hx2 : x ∈ emittedNextIds evs := by rw [hne]; exact hx
          have hi02 : i0 ∈ emittedNextIds evs := by rw [hne]; simp
          exact hconst x hx2 i0 hi02
        exact chain_le_of_const i0 hc
    · intro x hx y hy
      have hxm : x ∈ ids := List.mem_of_mem_getLast? hx
      have hym : y ∈ emittedNextIds evs := List.mem_of_mem_head? hy
      rcases hemit y hym with ⟨j0, hj0, rfl⟩
      have hj0m : j0 ∈ s1.storage := by
        have := List.mem_of_mem_head? (show j0 ∈ s1.storage.head? from hj0 ▸ rfl)
        exact this
      rcases hgrow j0 hj0m with hin | hge
      · exact hlo x hxm j0 hin
      · exact le_trans (Nat.le_of_lt (hlt x hxm)) hge
  · intro m hm
    rcases List.mem_append.mp hm with hm1 | hm2
    · exact lt_of_lt_of_le (hlt m hm1) hnle
    · exact (hmin m hm2).2
  · intro m hm j hj
    rcases List.mem_append.mp hm with hm1 | hm2
    · rcases hgrow j hj with hin | hge
      · exact hlo m hm1 j hin
      · exact le_trans (Nat.le_of_lt (hlt m hm1)) hge
    · exact (hmin m hm2).1 j hj

lemma runOps_traceOK : ∀ (ops : List Op) {s : QState} {ids : List Nat}
    {s1 : QState} {evs : List Ev}, TraceOK s ids →
    runOps s ops = some (s1, evs) →
    TraceOK s1 (ids ++ emittedNextIds evs) := by
  intro ops
  induction ops with
  | nil =>
    intro s ids s1 evs h hr
    simp only [runOps, Option.some.injEq, Prod.mk.injEq] at hr
    obtain ⟨hs1, hevs⟩ := hr
    subst hs1
    subst hevs
    simpa [emittedNextIds] using h
  | cons op ops ih =>
    intro s ids s1 evs h hr
    simp only [runOps] at hr
    rcases ha : applyOp s op with _ | ⟨sm, evs1⟩
    · rw [ha] at hr
      simp at hr
    · rw [ha] at hr
      dsimp only at hr
      rcases hb : runOps sm ops with _ | ⟨sm2, evs2⟩
      · rw [hb] at hr
        simp at hr
      · rw [hb] at hr
        simp only [Option.some.injEq, Prod.mk.injEq] at hr
        obtain ⟨hs1, hevs⟩ := hr
        subst hs1
        subst hevs
        have h2 := ih (traceOK_step h ha) hb
        have hE : emittedNextIds (evs1 ++ evs2)
            = emittedNextIds evs1 ++ emittedNextIds evs2 :=
          List.filterMap_append _ _ _
        rw [hE, ← List.append_assoc]
        exact h2

lemma runOps_inv : ∀ (ops : List Op) {s : QState} {s1 : QState} {evs : List Ev},
    QInv s → runOps s ops = some (s1, evs) →
    QInv s1 ∧ (s1.storage.length : Int) = s.storage.length + netDelta ops := by
  intro ops
  induction ops with
  | nil =>
    intro s s1 evs h hr
    simp only [runOps, Option.some.injEq, Prod.mk.injEq] at hr
    obtain ⟨hs1, hevs⟩ := hr
    subst hs1
    exact ⟨h, by simp [netDelta]⟩
  | cons op ops ih =>
    intro s s1 evs h hr
    simp only [runOps] at hr
    rcases ha : applyOp s op with _ | ⟨sm, evs1⟩
    · rw [ha] at hr
      simp at hr
    · rw [ha] at hr
      dsimp only at hr
      rcases hb : runOps sm ops with _ | ⟨sm2, evs2⟩
      · rw [hb] at hr
        simp at hr
      · rw [hb] at hr
        simp only [Option.some.injEq, Prod.mk.injEq] at hr
        obtain ⟨hs1, hevs⟩ := hr
        subst hs1
        obtain ⟨hI1, hd1, hg1, hdelta, he1⟩ := applyOp_ok h ha
        obtain ⟨hI2, hd2⟩ := ih hI1 hb
        refine ⟨hI2, ?_⟩
        rw [hd2, hdelta]
        show (s.storage.length : Int) + opDelta op + netDelta ops
          = s.storage.length + netDelta (op :: ops)
        simp [netDelta]
        ring
    
lemma openState_inv {storage0 : List Job} {nid b : Nat}
    (hs : List.Pairwise (fun a b => a.id < b.id) storage0)
    (hb : ∀ j ∈ storage0, j.id < nid) (hb1 : 1 ≤ b) :
    QInv (openState storage0 nid b) := by
  refine ⟨hs, hb, ?_, rfl, ?_, rfl⟩
  · show (sortById storage0).take b =
      storage0.take ((sortById storage0).take b).length
    rw [sortById_eq_self hs]
    exact (take_len_take b storage0).symm
  · intro he
    have he2 : ((sortById storage0).take b).isEmpty = true := by
      have : (some ((sortById storage0).take b).isEmpty : Option Bool)
          = some true := he
      simpa using this
    rw [sortById_eq_self hs] at he2
    have he3 : storage0.take b = [] := List.isEmpty_iff.mp he2
    rcases List.take_eq_nil_iff.mp he3 with hb0 | h0
    · omega
    · exact h0

lemma head?_filter_eq_find? (p : Job → Bool) :
    ∀ (l : List Job), (l.filter p).head? = l.find? p := by
  intro l
  induction l with
  | nil => rfl
  | cons a t ih =>
    by_cases hpa : p a = true
    · rw [List.filter_cons_of_pos hpa, List.find?_cons_of_pos _ hpa]
      rfl
    · rw [List.filter_cons_of_neg (by simpa using hpa),
        List.find?_cons_of_neg _ (by simpa using hpa)]
      exact ih

lemma find?_min {l : List Job}
    (hs : List.Pairwise (fun a b => a.id < b.id) l) {p : Job → Bool} {j0 : Job}
    (hf : l.find? p = some j0) : ∀ j ∈ l, p j = true → j0.id ≤ j.id := by
  induction l with
  | nil => simp at hf
  | cons a t ih =>
    rcases List.pairwise_cons.mp hs with ⟨ha, ht⟩
    by_cases hpa : p a = true
    · rw [List.find?_cons_of_pos _ hpa] at hf
      simp only [Option.some.injEq] at hf
      subst hf
      intro j hj _
      rcases List.mem_cons.mp hj with rfl | hjt
      · exact le_refl _
      · exact le_of_lt (ha j hjt)
    · rw [List.find?_cons_of_neg _ (by simpa using hpa)] at hf
      intro j hj hpj
      rcases List.mem_cons.mp hj with rfl | hjt
      · exact absurd hpj hpa
      · exact ih ht hf j hjt hpj

lemma getFirstJobId_eq {s : QState} {p : Payload} (hInv : QInv s) :
    getFirstJobId s p =
      (match s.storage.find? (fun j => j.job == p) with
        | some j => JVal.num j.id
        | none => JVal.undefined) := by
  obtain ⟨hsort, hbound, hpre, hlen, hemp, hdb⟩ := hInv
  have hdecomp := prefix_drop hpre
  rcases hq : s.queue.find? (fun j => j.job == p) with _ | j
  · have hsf : s.storage.find? (fun j => j.job == p)
        = (s.storage.drop s.queue.length).find? (fun j => j.job == p) := by
      conv_lhs => rw [hdecomp]
      rw [List.find?_append, hq]
      rfl
    have hsearch : (searchQueue s p).head?
        = (s.storage.find? (fun j => j.job == p)).map (fun j => j.id) := by
      rw [searchQueue, sortById_eq_self hsort, List.head?_map,
        head?_filter_eq_find?]
    rcases hsf2 : s.storage.find? (fun j => j.job == p) with _ | j0
    · have hh : (searchQueue s p).head? = none := by
        rw [hsearch, hsf2]
        rfl
      simp [getFirstJobId, hq, hh, hsf2]
    · have hh : (searchQueue s p).head? = some j0.id := by
        rw [hsearch, hsf2]
        rfl
      simp [getFirstJobId, hq, hh, hsf2]
  · have hsf : s.storage.find? (fun j2 => j2.job == p) = some j := by
      conv_lhs => rw [hdecomp]
      rw [List.find?_append, hq]
      rfl
    simp [getFirstJobId, hq, hsf]


/-- Modelled from the claim text of C1: the trigger policy evaluated in the
stated order — (1) not running or empty: nothing; (2) window empty and
Total Count nonzero: hydrate up to `batchSize` jobs in ascending id order
and emit the head of the refreshed window; (3) window non-empty: emit its
head; (4) otherwise set `empty` and request a reclaim/compaction pass. -/
def triggerNextSpec (s : QState) : QState × List Ev :=
  if ¬ s.run ∨ s.empty = some true then (s, [])
  else if s.queue = [] ∧ s.length ≠ some 0 then
    ({ s with queue := (sortById s.storage).take s.batchSize },
      [Ev.next ((sortById s.storage).take s.batchSize).head?])
  else if s.queue ≠ [] then (s, [Ev.next s.queue.head?])
  else ({ s with empty := some true }, [Ev.emptied, Ev.vacuum])

/-- C1: the `trigger_next` handler implements exactly the four-step policy
of the specification, in the specified order, for every state. -/
theorem trigger_next_policy : ∀ s : QState, triggerNext s = triggerNextSpec s :=
  fun _ => rfl

/-- C2 (counterexample): after `open` on an empty store, the operation
sequence add, add, start, done(2) emits `next` for job 1 twice — the ids
observed via `next` are [1, 1], which is not strictly ascending.  Removing
a job other than the emitted window head re-emits the same head. -/
theorem next_emission_not_strictly_ascending :
    (runOps (openState [] 1 10)
        [Op.add "a", Op.add "b", Op.start, Op.done (some 2)]).map
      (fun r => emittedNextIds r.2) = some [1, 1] ∧
    ¬ List.Chain' (fun a b : Nat => a < b) [1, 1] := by
  constructor
  · decide
  · intro hc
    rw [List.chain'_cons] at hc
    exact absurd hc.1 (by omega)

/-- C2 (amended): for every sequence of successful add, done, delete, start
and stop operations after `open()` on a valid store, the ids emitted via
`next` are observed in ascending (non-strict) id order; consecutive
duplicates occur exactly when a removal targets a job other than the
emitted head. -/
theorem next_emissions_monotone (storage0 : List Job) (nid b : Nat)
    (ops : List Op) (s1 : QState) (evs : List Ev)
    (hs : List.Pairwise (fun a b => a.id < b.id) storage0)
    (hb : ∀ j ∈ storage0, j.id < nid) (hb1 : 1 ≤ b)
    (hrun : runOps (openState storage0 nid b) ops = some (s1, evs)) :
    List.Chain' (fun a b => a ≤ b) (emittedNextIds evs) := by
  have h0 : TraceOK (openState storage0 nid b) [] :=
    ⟨openState_inv hs hb hb1, List.chain'_nil, by simp, by simp⟩
  have h1 := runOps_traceOK ops h0 hrun
  simpa using h1.2.1

/-- C2 (witness for the amended theorem): a queue opened over one persisted
job and started emits `next` once, and the trace [1] is monotone. -/
theorem next_emissions_monotone_witness :
    List.Chain' (fun a b => a ≤ b)
      (emittedNextIds [Ev.next (some (Job.mk 1 "a"))]) :=
  next_emissions_monotone [Job.mk 1 "a"] 2 5 [Op.start]
    { storage := [Job.mk 1 "a"], nextId := 2, batchSize := 5,
      queue := [Job.mk 1 "a"], length := some 1, empty := some false,
      run := true, opened := true, dbOpen := true, lastID := none,
      idProp := none }
    [Ev.next (some (Job.mk 1 "a"))]
    (by decide) (by decide) (by decide) (by decide)

/-- Discriminator for add operations. -/
def isAddOp : Op → Bool
  | .add _ => true
  | _ => false

/-- Discriminator for removal (done or delete) operations. -/
def isRemovalOp : Op → Bool
  | .done _ => true
  | .del _ => true
  | _ => false

lemma netDelta_cons (o : Op) (t : List Op) :
    netDelta (o :: t) = opDelta o + netDelta t := by
  simp [netDelta]

lemma netDelta_adds : ∀ {ops : List Op}, (∀ o ∈ ops, isAddOp o = true) →
    netDelta ops = ops.length := by
  intro ops
  induction ops with
  | nil => intro _; simp [netDelta]
  | cons o t ih =>
    intro h
    have ho := h o (by simp)
    have ht := ih (fun o2 ho2 => h o2 (List.mem_cons_of_mem o ho2))
    cases o with
    | add p =>
      rw [netDelta_cons, ht]
      simp only [opDelta, List.length_cons]
      push_cast
      ring
    | done oid => simp [isAddOp] at ho
    | del oid => simp [isAddOp] at ho
    | start => simp [isAddOp] at ho
    | stop => simp [isAddOp] at ho

lemma netDelta_removals : ∀ {ops : List Op}, (∀ o ∈ ops, isRemovalOp o = true) →
    netDelta ops = -(ops.length : Int) := by
  intro ops
  induction ops with
  | nil => intro _; simp [netDelta]
  | cons o t ih =>
    intro h
    have ho := h o (by simp)
    have ht := ih (fun o2 ho2 => h o2 (List.mem_cons_of_mem o ho2))
    cases o with
    | add p => simp [isRemovalOp] at ho
    | done oid =>
      rw [netDelta_cons, ht]
      simp only [opDelta, List.length_cons]
      push_cast
      ring
    | del oid =>
      rw [netDelta_cons, ht]
      simp only [opDelta, List.length_cons]
      push_cast
      ring
    | start => simp [isRemovalOp] at ho
    | stop => simp [isRemovalOp] at ho

lemma netDelta_append (l1 l2 : List Op) :
    netDelta (l1 ++ l2) = netDelta l1 + netDelta l2 := by
  simp [netDelta]

/-- C3: on a queue opened over a fresh (empty) store, after any sequence of
successful adds followed by successful done/delete operations, `getLength()`
equals the number of adds minus the number of removals. -/
theorem getLength_net_adds_removals (padds prems : List Op) (b : Nat)
    (s1 : QState) (evs : List Ev)
    (ha : ∀ o ∈ padds, isAddOp o = true)
    (hr : ∀ o ∈ prems, isRemovalOp o = true)
    (hb1 : 1 ≤ b)
    (hrun : runOps (openState [] 1 b) (padds ++ prems) = some (s1, evs)) :
    getLengthFn s1 = some ((padds.length : Int) - (prems.length : Int)) := by
  have hI0 : QInv (openState [] 1 b) := openState_inv (by simp) (by simp) hb1
  obtain ⟨hI1, hd⟩ := runOps_inv _ hI0 hrun
  have hlen1 := hI1.2.2.2.1
  show s1.length = some ((padds.length : Int) - (prems.length : Int))
  rw [hlen1]
  congr 1
  rw [hd, netDelta_append, netDelta_adds ha, netDelta_removals hr]
  show ((List.length ([] : List Job) : Int)) + _ = _
  simp
  ring

/-- C3 (witness): one add then one done on a fresh store leaves
`getLength()` at 1 - 1 = 0. -/
theorem getLength_net_adds_removals_witness :
    getLengthFn
      { storage := [], nextId := 2, batchSize := 10, queue := [],
        length := some 0, empty := some false, run := false, opened := true,
        dbOpen := true, lastID := none, idProp := none }
      = some ((1 : Int) - (1 : Int)) :=
  getLength_net_adds_removals [Op.add "a"] [Op.done (some 1)] 10
    { storage := [], nextId := 2, batchSize := 10, queue := [],
      length := some 0, empty := some false, run := false, opened := true,
      dbOpen := true, lastID := none, idProp := none }
    [Ev.added none "a"]
    (by decide) (by decide) (by decide) (by decide)

/-- C4 (counterexample): add one job to a freshly opened empty queue and
complete it with done(1) while the queue is stopped: the reachable state
has `getLength() == 0` but `isEmpty()` returns false, refuting the claimed
equivalence. -/
theorem isEmpty_getLength_iff_fails :
    (runOps (openState [] 1 10) [Op.add "a", Op.done (some 1)]).map
      (fun r => (isEmptyChk r.1, getLengthFn r.1))
      = some (some false, some 0) ∧
    (some false : Option Bool) ≠ some true := by
  constructor
  · decide
  · decide

/-- C4 (amended): one direction holds in every reachable state after
`open()`: whenever `isEmpty()` returns true, `getLength()` is 0.  The
converse fails when the queue is drained while stopped. -/
theorem isEmpty_true_implies_length_zero (storage0 : List Job) (nid b : Nat)
    (ops : List Op) (s1 : QState) (evs : List Ev)
    (hs : List.Pairwise (fun a b => a.id < b.id) storage0)
    (hb : ∀ j ∈ storage0, j.id < nid) (hb1 : 1 ≤ b)
    (hrun : runOps (openState storage0 nid b) ops = some (s1, evs))
    (he : isEmptyChk s1 = some true) :
    getLengthFn s1 = some 0 := by
  obtain ⟨hI1, _⟩ := runOps_inv _ (openState_inv hs hb hb1) hrun
  obtain ⟨hsort, hbound, hpre, hlen, hemp, hdb⟩ := hI1
  have hst := hemp he
  show s1.length = some 0
  rw [hlen, hst]
  rfl

/-- C4 (witness for the amended theorem): a freshly opened empty queue has
`isEmpty()` true and `getLength()` 0. -/
theorem isEmpty_true_implies_length_zero_witness :
    getLengthFn (openState [] 1 10) = some 0 :=
  isEmpty_true_implies_length_zero [] 1 10 [] (openState [] 1 10) []
    (by decide) (by decide) (by decide) rfl (by decide)

/-- C5: evaluating `add("a")` on a freshly opened empty queue: storage does
assign id 1 to the new row, but the promise resolves `undefined` (`none`,
the queue object property `this.id`) rather than the assigned id, and the
`add` notification carries id `undefined` (`this.lastID` of the queue
object) rather than the job id — the claim describes the intent, which the
arrow-function callback defeats. -/
theorem add_resolves_undefined_id :
    (addOp (openState [] 1 10) "a").2.2 = none ∧
    (addOp (openState [] 1 10) "a").2.1 = [Ev.added none "a"] ∧
    (addOp (openState [] 1 10) "a").1.storage = [Job.mk 1 "a"] := by
  decide

/-- State of a freshly opened empty queue after one `add("a")`. -/
def sAfterAdd : QState := (addOp (openState [] 1 10) "a").1

/-- Projection of a successful call result onto its resulting state. -/
def okState : CallRes → Option QState
  | .ok s _ _ => some s
  | _ => none

/-- C6: with job 1 just added, `has(1)` settles as a rejection with reason
true (the promise executor names its parameters in swapped order), not as a
promise resolved with true; after `delete(1)` it settles as a rejection
with reason false.  The claimed resolutions never happen. -/
theorem has_rejects_instead_of_resolving :
    hasOp sAfterAdd 1 = HasOutcome.rejectedWith true ∧
    (okState (deleteOp sAfterAdd (some 1))).map (fun s2 => hasOp s2 1)
      = some (HasOutcome.rejectedWith false) := by
  decide

/-- C7 (counterexample): on an opened empty queue, `getFirstJobId` resolves
`undefined` (`data[0]` of the empty result array) and not the claimed
explicit null: the `data === []` check is reference equality and never
fires. -/
theorem getFirstJobId_undefined_not_null :
    getFirstJobId (openState [] 1 10) "a" = JVal.undefined ∧
    JVal.undefined ≠ JVal.null := by
  constructor
  · decide
  · decide

/-- C7 (amended): in every invariant-satisfying state, `getFirstJobId`
searches the window first and falls back to the storage-wide search,
resolving the earliest matching id when a match exists — and resolving
`undefined` (not null) when no job matches. -/
theorem getFirstJobId_earliest_or_undefined (s : QState) (p : Payload)
    (hInv : QInv s) :
    ((∀ j ∈ s.storage, j.job ≠ p) → getFirstJobId s p = JVal.undefined) ∧
    (∀ j ∈ s.storage, j.job = p →
      ∃ j0, j0 ∈ s.storage ∧ j0.job = p ∧
        getFirstJobId s p = JVal.num j0.id ∧ j0.id ≤ j.id) := by
  rw [getFirstJobId_eq hInv]
  have hsort := hInv.1
  constructor
  · intro hno
    have hf : s.storage.find? (fun j => j.job == p) = none := by
      rw [List.find?_eq_none]
      intro j hj
      simpa using hno j hj
    rw [hf]
  · intro j hj hjp
    rcases hf : s.storage.find? (fun j2 => j2.job == p) with _ | j0
    · exfalso
      have := List.find?_eq_none.mp hf j hj
      simp [hjp] at this
    · refine ⟨j0, List.mem_of_find?_eq_some hf,
        by simpa using List.find?_some hf, by rw [hf],
        find?_min hsort hf j hj (by simp [hjp])⟩

/-- C7 (witness for the amended theorem): searching an opened store holding
only a job with payload "b" for payload "a" resolves undefined. -/
theorem getFirstJobId_earliest_or_undefined_witness :
    getFirstJobId (openState [Job.mk 1 "b"] 2 10) "a" = JVal.undefined :=
  (getFirstJobId_earliest_or_undefined (openState [Job.mk 1 "b"] 2 10) "a"
    (by decide)).1 (by decide)

/-- C8 (counterexample): after one add, `close()` leaves `this.length` at
1 — the total count is not reset to its uninitialized (`null`) value. -/
theorem close_does_not_reset_length :
    (closeOp sAfterAdd).length = some 1 ∧ (some 1 : Option Int) ≠ none := by
  decide

/-- C8 (amended): `close()` resets the window, the emptiness flag, the run
flag, the opened flag and the db handle, but retains `this.length` (and, in
the model, the on-disk rows): the total count is not reset. -/
theorem close_resets_window_empty_run (s : QState) :
    (closeOp s).queue = [] ∧ (closeOp s).empty = none ∧
    (closeOp s).run = false ∧ (closeOp s).opened = false ∧
    (closeOp s).dbOpen = false ∧ (closeOp s).length = s.length ∧
    (closeOp s).storage = s.storage :=
  ⟨rfl, rfl, rfl, rfl, rfl, rfl, rfl⟩

/-- C9: the constructor throws when the filename is undefined and when the
batch size is a non-number or a number below 1; an omitted batch size
defaults to 10; the empty-string target selects the in-memory store
without error. -/
theorem ctor_validation (b0 : Option CtorArg) (f : String) (n : Int) :
    persistentQueueCtor none b0
      = Except.error "No filename parameter provided" ∧
    persistentQueueCtor (some f) (some CtorArg.nonNum)
      = Except.error "Invalid batchSize parameter.  Must be a NUMBER > 0" ∧
    (n < 1 → persistentQueueCtor (some f) (some (CtorArg.num n))
      = Except.error "Invalid batchSize parameter.  Must be a NUMBER > 0") ∧
    persistentQueueCtor (some f) none
      = Except.ok
          { dbPath := (if f = "" then ":memory:" else f), batchSize := 10 } ∧
    persistentQueueCtor (some "") none
      = Except.ok { dbPath := ":memory:", batchSize := 10 } := by
  refine ⟨rfl, rfl, ?_, ?_, rfl⟩
  · intro hn
    simp only [persistentQueueCtor]
    rw [if_pos hn]
  · simp [persistentQueueCtor]

/-- C9 (witness): batch size 0 with a concrete filename throws. -/
theorem ctor_validation_witness :
    persistentQueueCtor (some "q.db") (some (CtorArg.num 0))
      = Except.error "Invalid batchSize parameter.  Must be a NUMBER > 0" :=
  (ctor_validation none "q.db" 0).2.2.1 (by decide)

/-- C10 (counterexample): with the window empty, `delete()` with the id
omitted does not throw synchronously: the TypeError is raised inside the
promise executor, so the caller receives a rejected promise instead. -/
theorem delete_rejects_not_syncthrow :
    deleteOp sAfterAdd none = CallRes.rejected JsErr.typeError ∧
    CallRes.rejected JsErr.typeError ≠ CallRes.syncThrow JsErr.typeError := by
  decide

/-- C10 (amended): calling `done()` with the id omitted while the window is
empty throws a synchronous TypeError (from reading `.id` of
`shift()`'s undefined result); calling `delete()` in the same state returns
a promise rejected with that TypeError; neither resolves the removal
against storage or reports a not-found failure. -/
theorem removeJob_no_id_empty_window (s : QState) (h : s.queue = []) :
    doneOp s none = CallRes.syncThrow JsErr.typeError ∧
    deleteOp s none = CallRes.rejected JsErr.typeError := by
  have hrm : removeJob s none = none := by
    simp [removeJob, h]
  constructor
  · simp [doneOp, hrm]
  · simp [deleteOp, hrm]

/-- C10 (witness for the amended theorem): the freshly opened empty queue
has an empty window; `done()` throws and `delete()` rejects. -/
theorem removeJob_no_id_empty_window_witness :
    doneOp (openState [] 1 10) none = CallRes.syncThrow JsErr.typeError ∧
    deleteOp (openState [] 1 10) none = CallRes.rejected JsErr.typeError :=
  removeJob_no_id_empty_window (openState [] 1 10) (by decide)
